import Mathlib

/-!
Shallow embedding of `src/fiveloops.c`: a five-level cache-blocked DGEMM
(`C ← A·B + C`) with two packing routines and a 4×4 register microkernel.

Modelling choices:
* doubles are modelled as exact rationals (`ℚ`); the hardware FMA
  `_mm256_fmadd_pd` computes `a*b + c` with a single rounding, so over `ℚ`
  it is literally `a*b + c`;
* the three strided matrices live in flat memories `ℤ → ℚ` addressed in
  element units, exactly as the C macros `alpha(i,j) = A[i*rsA + j*csA]`
  etc. address them; reads outside the logical view simply read the
  (unconstrained) memory function, which models indeterminate memory;
* the two packed buffers are memories `ℕ → ℚ`; the contents a buffer has
  right after `_mm_malloc` are an arbitrary function (`Bt0`, `At0`);
* each loop level additionally returns a trace of events (buffer
  allocation/release, packing-routine calls, microkernel invocations and
  the microkernel's element loads/stores from/to C), so that claims about
  call counts, buffer lifetime and the memory footprint on C are statable;
* `for (x = 0; x < n; x += S)` iterates over `chunkStarts S n`, the list
  `[0, S, 2*S, ...]` of length `⌈n/S⌉`;
* the register-tile constants are `MR = NR = 4` (hard-wired in the C
  microkernel: four `__m256d` accumulators of four doubles); the cache
  block constants `MC`, `NC`, `KC` are machine-tuned and are threaded as
  explicit parameters.
-/

namespace FiveLoops

/-- Events recorded by the embedded code: aligned allocation/release of the
two packed buffers (with requested size in bytes and alignment), calls of
the two per-chunk packing routines, microkernel invocations, and the
microkernel's per-element loads and stores on the C matrix. -/
inductive Ev where
  | allocB (bytes align : ℕ)
  | freeB
  | allocA (bytes align : ℕ)
  | freeA
  | packBcall
  | packAcall
  | kern
  | loadC (a : ℤ)
  | storeC (a : ℤ)
deriving DecidableEq, Repr

/-- Write a single double at an address of a flat memory. -/
def wr {α : Type} [DecidableEq α] (f : α → ℚ) (a : α) (v : ℚ) : α → ℚ :=
  fun x => if x = a then v else f x

/-- The start indices visited by `for (x = 0; x < n; x += step)`:
`[0, step, 2*step, ...]`, of length `⌈n/step⌉`. -/
def chunkStarts (step n : ℕ) : List ℕ :=
  (List.range ((n + step - 1) / step)).map (fun r => r * step)

/-- A loop that threads a state through its chunks and accumulates the
trace of events emitted by each chunk body. -/
def loopFold {σ : Type} (L : List ℕ) (s0 : σ) (body : σ → ℕ → σ × List Ev) :
    σ × List Ev :=
  L.foldl (fun st x => ((body st.1 x).1, st.2 ++ (body st.1 x).2)) (s0, [])

/-- Register tile height `MR` (the microkernel accumulates 4 rows). -/
def MR : ℕ := 4

/-- Register tile width `NR` (the microkernel accumulates 4 columns). -/
def NR : ℕ := 4

/-- `packB_KCxNR` from the source: copy one `k × n` panel of B (addressed
with arbitrary strides) to the contiguous positions `off + p*NR + j` of the
packed buffer; a panel narrower than `NR` is padded with exact zeros. -/
def packB_KCxNR (k n : ℕ) (B : ℤ → ℚ) (b rsB csB : ℤ) (Bt : ℕ → ℚ)
    (off : ℕ) : ℕ → ℚ :=
  if n = NR then
    (List.range k).foldl (fun b1 p =>
      (List.range NR).foldl
        (fun b2 j => wr b2 (off + p * NR + j) (B (b + (p : ℤ) * rsB + (j : ℤ) * csB))) b1) Bt
  else
    (List.range k).foldl (fun b1 p =>
      (List.range (NR - n)).foldl
        (fun b2 j2 => wr b2 (off + p * NR + (n + j2)) 0)
        ((List.range n).foldl
          (fun b2 j => wr b2 (off + p * NR + j) (B (b + (p : ℤ) * rsB + (j : ℤ) * csB))) b1)) Bt

/-- `packB_KCxNC` from the source: pack a `k × n` block of B panel by
panel (`NR` columns at a time), advancing the destination by `k * jb`
after a panel of width `jb`. -/
def packB_KCxNC (k n : ℕ) (B : ℤ → ℚ) (b rsB csB : ℤ) (Bt : ℕ → ℚ) : ℕ → ℚ :=
  ((chunkStarts NR n).foldl (fun (st : (ℕ → ℚ) × ℕ) j =>
      (packB_KCxNR k (min NR (n - j)) B (b + (j : ℤ) * csB) rsB csB st.1 st.2,
       st.2 + k * min NR (n - j))) (Bt, 0)).1

/-- `packA_MRxKC` from the source.  The branch condition in the C code is
`if (m = MR)`: an assignment, not a comparison, so `m` is set to `MR` and
the branch is taken whenever `MR ≠ 0`; the zero-padding alternative is kept
below exactly as it stands in the source (where its padding loop sits
outside the `p` loop), but it is dead code. -/
def packA_MRxKC (m k : ℕ) (A : ℤ → ℚ) (a rsA csA : ℤ) (At : ℕ → ℚ)
    (off : ℕ) : ℕ → ℚ :=
  if MR ≠ 0 then
    (List.range k).foldl (fun b1 p =>
      (List.range MR).foldl
        (fun b2 i => wr b2 (off + p * MR + i) (A (a + (i : ℤ) * rsA + (p : ℤ) * csA))) b1) At
  else
    (List.range (MR - MR)).foldl (fun b2 i2 => wr b2 (off + k * MR + (MR + i2)) 0)
      ((List.range k).foldl (fun b1 p =>
        (List.range MR).foldl
          (fun b2 i => wr b2 (off + p * MR + i) (A (a + (i : ℤ) * rsA + (p : ℤ) * csA))) b1) At)

/-- `packA_MCxKC` from the source: pack an `m × k` block of A panel by
panel (`MR` rows at a time), advancing the destination by `ib * k` after a
panel of height `ib`. -/
def packA_MCxKC (m k : ℕ) (A : ℤ → ℚ) (a rsA csA : ℤ) (At : ℕ → ℚ) : ℕ → ℚ :=
  ((chunkStarts MR m).foldl (fun (st : (ℕ → ℚ) × ℕ) i =>
      (packA_MRxKC (min MR (m - i)) k A (a + (i : ℤ) * rsA) rsA csA st.1 st.2,
       st.2 + min MR (m - i) * k)) (At, 0)).1

/-- The accumulator registers of the microkernel after the `p` loop:
column `j`, lane `t` starts from `g0 j t` (the tile of C loaded at entry)
and fused-multiply-adds `mpA[aoff + p*MR + t] * mpB[boff + p*NR + j]` for
each `p < k`; over `ℚ` an FMA is exactly `a*b + c`. -/
def kacc (k : ℕ) (mpA : ℕ → ℚ) (aoff : ℕ) (mpB : ℕ → ℚ) (boff : ℕ)
    (g0 : ℕ → ℕ → ℚ) : ℕ → ℕ → ℚ :=
  (List.range k).foldl
    (fun g p => fun j t => mpA (aoff + p * MR + t) * mpB (boff + p * NR + j) + g j t) g0

/-- One `_mm256_loadu_pd` of the C tile: `&gamma(0,j)` is `c + j*csC`, and
the vector holds the four consecutive doubles at that address (the kernel
never multiplies by `rsC`). -/
def loadTile (C : ℤ → ℚ) (c csC : ℤ) : ℕ → ℕ → ℚ :=
  fun j t => C (c + (j : ℤ) * csC + (t : ℤ))

/-- One `_mm256_storeu_pd`: write four consecutive doubles at `a`. -/
def storeVec (f : ℤ → ℚ) (a : ℤ) (v : ℕ → ℚ) : ℤ → ℚ :=
  wr (wr (wr (wr f a (v 0)) (a + 1) (v 1)) (a + 2) (v 2)) (a + 3) (v 3)

/-- The four element addresses touched by one 256-bit load or store. -/
def vecEvs (mk : ℤ → Ev) (a : ℤ) : List Ev :=
  [mk a, mk (a + 1), mk (a + 2), mk (a + 3)]

/-- `dgemm_ukernel_packed` from the source: load the current 4×4 tile of C
(one `loadu` per column, at `&gamma(0,j) = C + j*csC`), run `k` FMA steps
over the packed panels, and store the four accumulators back.  Returns the
updated C memory together with the trace of the invocation. -/
def dgemm_ukernel_packed (k : ℕ) (mpA : ℕ → ℚ) (aoff : ℕ) (mpB : ℕ → ℚ)
    (boff : ℕ) (C : ℤ → ℚ) (c rsC csC : ℤ) : (ℤ → ℚ) × List Ev :=
  (storeVec
    (storeVec
      (storeVec
        (storeVec C (c + 0 * csC) (kacc k mpA aoff mpB boff (loadTile C c csC) 0))
        (c + 1 * csC) (kacc k mpA aoff mpB boff (loadTile C c csC) 1))
      (c + 2 * csC) (kacc k mpA aoff mpB boff (loadTile C c csC) 2))
    (c + 3 * csC) (kacc k mpA aoff mpB boff (loadTile C c csC) 3),
   Ev.kern ::
     (vecEvs Ev.loadC (c + 0 * csC) ++ vecEvs Ev.loadC (c + 1 * csC) ++
      vecEvs Ev.loadC (c + 2 * csC) ++ vecEvs Ev.loadC (c + 3 * csC) ++
      (vecEvs Ev.storeC (c + 0 * csC) ++ vecEvs Ev.storeC (c + 1 * csC) ++
       vecEvs Ev.storeC (c + 2 * csC) ++ vecEvs Ev.storeC (c + 3 * csC))))

/-- `oneloop` from the source: walk the M extent in `MR`-row tiles; the
remainder `ib = min(MR, m - i)` is computed but never used, and the
microkernel is invoked on the full tile at `&At[i*k]`, `&gamma(i,0)`. -/
def oneloop (m n k : ℕ) (At Bt : ℕ → ℚ) (boff : ℕ) (C : ℤ → ℚ)
    (c rsC csC : ℤ) : (ℤ → ℚ) × List Ev :=
  loopFold (chunkStarts MR m) C (fun Cm i =>
    let _ib := min MR (m - i)
    dgemm_ukernel_packed k At (i * k) Bt boff Cm (c + (i : ℤ) * rsC) rsC csC)

/-- `twoloops` from the source: walk the N extent in `NR`-column panels,
handing `&Bt[j*k]` and `&gamma(0,j)` to `oneloop`. -/
def twoloops (m n k : ℕ) (At Bt : ℕ → ℚ) (C : ℤ → ℚ) (c rsC csC : ℤ) :
    (ℤ → ℚ) × List Ev :=
  loopFold (chunkStarts NR n) C (fun Cm j =>
    oneloop m (min NR (n - j)) k At Bt (j * k) Cm (c + (j : ℤ) * csC) rsC csC)

/-- The body of the `threeloops` chunk loop: repack `&alpha(i,0)` into the
packed A buffer (whose previous contents `st.1` persist across chunks,
since the buffer is allocated once per `threeloops` invocation) and hand
the chunk to `twoloops`. -/
def threeBody (MC : ℕ) (m n k : ℕ) (A : ℤ → ℚ) (a rsA csA : ℤ)
    (Bt : ℕ → ℚ) (c rsC csC : ℤ) (st : (ℕ → ℚ) × (ℤ → ℚ)) (i : ℕ) :
    ((ℕ → ℚ) × (ℤ → ℚ)) × List Ev :=
  ((packA_MCxKC (min MC (m - i)) k A (a + (i : ℤ) * rsA) rsA csA st.1,
    (twoloops (min MC (m - i)) n k
      (packA_MCxKC (min MC (m - i)) k A (a + (i : ℤ) * rsA) rsA csA st.1)
      Bt st.2 (c + (i : ℤ) * rsC) rsC csC).1),
   Ev.packAcall ::
     (twoloops (min MC (m - i)) n k
       (packA_MCxKC (min MC (m - i)) k A (a + (i : ℤ) * rsA) rsA csA st.1)
       Bt st.2 (c + (i : ℤ) * rsC) rsC csC).2)

/-- The chunk loop of `threeloops`, threading the packed A buffer and C. -/
def threeLoop (MC : ℕ) (m n k : ℕ) (A : ℤ → ℚ) (a rsA csA : ℤ)
    (Bt : ℕ → ℚ) (C : ℤ → ℚ) (c rsC csC : ℤ) (At0 : ℕ → ℚ) :
    ((ℕ → ℚ) × (ℤ → ℚ)) × List Ev :=
  loopFold (chunkStarts MC m) (At0, C) (threeBody MC m n k A a rsA csA Bt c rsC csC)

/-- `threeloops` from the source: allocate the packed A buffer
(`MC*KC` doubles, 64-byte aligned), walk the M extent in `MC`-row chunks,
repacking `&alpha(i,0)` once per chunk before calling `twoloops`, and free
the buffer before returning. -/
def threeloops (MC KC : ℕ) (m n k : ℕ) (A : ℤ → ℚ) (a rsA csA : ℤ)
    (Bt : ℕ → ℚ) (C : ℤ → ℚ) (c rsC csC : ℤ) (At0 : ℕ → ℚ) :
    (ℤ → ℚ) × List Ev :=
  ((threeLoop MC m n k A a rsA csA Bt C c rsC csC At0).1.2,
   Ev.allocA (MC * KC * 8) 64 ::
     ((threeLoop MC m n k A a rsA csA Bt C c rsC csC At0).2 ++ [Ev.freeA]))

/-- The body of the `fourloops` chunk loop: repack `&beta(p,0)` into the
packed B buffer (whose previous contents `st.1` persist across chunks) and
hand the chunk to `threeloops` at `&alpha(0,p)`. -/
def fourBody (MC NC KC : ℕ) (m n k : ℕ) (A : ℤ → ℚ) (a rsA csA : ℤ)
    (B : ℤ → ℚ) (b rsB csB : ℤ) (c rsC csC : ℤ) (At0 : ℕ → ℚ)
    (st : (ℕ → ℚ) × (ℤ → ℚ)) (p : ℕ) : ((ℕ → ℚ) × (ℤ → ℚ)) × List Ev :=
  ((packB_KCxNC (min KC (k - p)) n B (b + (p : ℤ) * rsB) rsB csB st.1,
    (threeloops MC KC m n (min KC (k - p)) A (a + (p : ℤ) * csA) rsA csA
      (packB_KCxNC (min KC (k - p)) n B (b + (p : ℤ) * rsB) rsB csB st.1)
      st.2 c rsC csC At0).1),
   Ev.packBcall ::
     (threeloops MC KC m n (min KC (k - p)) A (a + (p : ℤ) * csA) rsA csA
       (packB_KCxNC (min KC (k - p)) n B (b + (p : ℤ) * rsB) rsB csB st.1)
       st.2 c rsC csC At0).2)

/-- The chunk loop of `fourloops`, threading the packed B buffer and C. -/
def fourLoop (MC NC KC : ℕ) (m n k : ℕ) (A : ℤ → ℚ) (a rsA csA : ℤ)
    (B : ℤ → ℚ) (b rsB csB : ℤ) (C : ℤ → ℚ) (c rsC csC : ℤ)
    (Bt0 At0 : ℕ → ℚ) : ((ℕ → ℚ) × (ℤ → ℚ)) × List Ev :=
  loopFold (chunkStarts KC k) (Bt0, C)
    (fourBody MC NC KC m n k A a rsA csA B b rsB csB c rsC csC At0)

/-- `fourloops` from the source: allocate the packed B buffer (`KC*NC`
doubles, 64-byte aligned), walk the K extent in `KC`-deep chunks, repacking
`&beta(p,0)` once per chunk before calling `threeloops`, and free the
buffer before returning. -/
def fourloops (MC NC KC : ℕ) (m n k : ℕ) (A : ℤ → ℚ) (a rsA csA : ℤ)
    (B : ℤ → ℚ) (b rsB csB : ℤ) (C : ℤ → ℚ) (c rsC csC : ℤ)
    (Bt0 At0 : ℕ → ℚ) : (ℤ → ℚ) × List Ev :=
  ((fourLoop MC NC KC m n k A a rsA csA B b rsB csB C c rsC csC Bt0 At0).1.2,
   Ev.allocB (KC * NC * 8) 64 ::
     ((fourLoop MC NC KC m n k A a rsA csA B b rsB csB C c rsC csC Bt0 At0).2 ++
      [Ev.freeB]))

/-- `fiveloops` from the source: walk the N extent in `NC`-column chunks,
handing `&beta(0,j)` and `&gamma(0,j)` to `fourloops`. -/
def fiveloops (MC NC KC : ℕ) (m n k : ℕ) (A : ℤ → ℚ) (a rsA csA : ℤ)
    (B : ℤ → ℚ) (b rsB csB : ℤ) (C : ℤ → ℚ) (c rsC csC : ℤ)
    (Bt0 At0 : ℕ → ℚ) : (ℤ → ℚ) × List Ev :=
  loopFold (chunkStarts NC n) C (fun Cm j =>
    fourloops MC NC KC m (min NC (n - j)) k A a rsA csA
      B (b + (j : ℤ) * csB) rsB csB Cm (c + (j : ℤ) * csC) rsC csC Bt0 At0)

/-- The entry point with C `int` dimensions: a non-positive extent makes
the corresponding `for` loop run zero times, which matches `Int.toNat`. -/
def fiveloopsZ (MC NC KC : ℕ) (m n k : ℤ) (A : ℤ → ℚ) (a rsA csA : ℤ)
    (B : ℤ → ℚ) (b rsB csB : ℤ) (C : ℤ → ℚ) (c rsC csC : ℤ)
    (Bt0 At0 : ℕ → ℚ) : (ℤ → ℚ) × List Ev :=
  fiveloops MC NC KC m.toNat n.toNat k.toNat A a rsA csA B b rsB csB
    C c rsC csC Bt0 At0

/-- Modelled from the spec: the textbook triple-loop reference
`C(i,j) ← C(i,j) + Σ_{p<k} A(i,p) * B(p,j)` on the same strided views;
used only to compare the kernel's output against the specification's
"textbook triple-loop computation". -/
def gemmRefSpec (m n k : ℕ) (A : ℤ → ℚ) (a rsA csA : ℤ) (B : ℤ → ℚ)
    (b rsB csB : ℤ) (C : ℤ → ℚ) (c rsC csC : ℤ) : ℤ → ℚ :=
  (List.range m).foldl (fun C1 i =>
    (List.range n).foldl (fun C2 j =>
      wr C2 (c + (i : ℤ) * rsC + (j : ℤ) * csC)
        (C2 (c + (i : ℤ) * rsC + (j : ℤ) * csC) +
          ((List.range k).map (fun p =>
            A (a + (i : ℤ) * rsA + (p : ℤ) * csA) *
            B (b + (p : ℤ) * rsB + (j : ℤ) * csB))).sum)) C1) C

/-! ### Generic lemmas about the loop combinator, chunk lists and writes -/

theorem loopFold_aux {σ : Type} (L : List ℕ) (body : σ → ℕ → σ × List Ev)
    (s0 : σ) (tr0 : List Ev) :
    L.foldl (fun st x => ((body st.1 x).1, st.2 ++ (body st.1 x).2)) (s0, tr0)
      = ((loopFold L s0 body).1, tr0 ++ (loopFold L s0 body).2) := by
  induction L generalizing s0 tr0 with
  | nil => simp [loopFold]
  | cons x xs ih =>
    simp only [loopFold, List.foldl_cons] at *
    rw [ih ((body s0 x).1) (tr0 ++ (body s0 x).2),
        ih ((body s0 x).1) ([] ++ (body s0 x).2)]
    simp

theorem loopFold_nil {σ : Type} (s0 : σ) (body : σ → ℕ → σ × List Ev) :
    loopFold [] s0 body = (s0, []) := rfl

theorem loopFold_cons {σ : Type} (x : ℕ) (xs : List ℕ) (s0 : σ)
    (body : σ → ℕ → σ × List Ev) :
    loopFold (x :: xs) s0 body
      = ((loopFold xs (body s0 x).1 body).1,
         (body s0 x).2 ++ (loopFold xs (body s0 x).1 body).2) := by
  simp only [loopFold, List.foldl_cons]
  rw [loopFold_aux xs body ((body s0 x).1) ([] ++ (body s0 x).2)]
  simp [loopFold]

theorem loopFold_fst_invariant {σ : Type} (P : σ → Prop) (L : List ℕ) (s0 : σ)
    (body : σ → ℕ → σ × List Ev)
    (hb : ∀ s x, x ∈ L → P s → P (body s x).1) (h0 : P s0) :
    P (loopFold L s0 body).1 := by
  induction L generalizing s0 with
  | nil => exact h0
  | cons x xs ih =>
    rw [loopFold_cons]
    exact ih ((body s0 x).1)
      (fun s y hy hP => hb s y (List.mem_cons_of_mem x hy) hP)
      (hb s0 x (List.mem_cons_self x xs) h0)

theorem loopFold_countP {σ : Type} (p : Ev → Bool) (L : List ℕ) (s0 : σ)
    (body : σ → ℕ → σ × List Ev) (f : ℕ → ℕ)
    (hb : ∀ s x, x ∈ L → ((body s x).2.countP p) = f x) :
    ((loopFold L s0 body).2.countP p) = (L.map f).sum := by
  induction L generalizing s0 with
  | nil => simp [loopFold_nil]
  | cons x xs ih =>
    rw [loopFold_cons]
    simp only [List.countP_append, List.map_cons, List.sum_cons]
    rw [hb s0 x (List.mem_cons_self x xs),
        ih ((body s0 x).1) (fun s y hy => hb s y (List.mem_cons_of_mem x hy))]

theorem loopFold_mem {σ : Type} (ev : Ev) {L : List ℕ} {x : ℕ} (hx : x ∈ L)
    (s0 : σ) (body : σ → ℕ → σ × List Ev) (hb : ∀ s, ev ∈ (body s x).2) :
    ev ∈ (loopFold L s0 body).2 := by
  induction L generalizing s0 with
  | nil => cases hx
  | cons y ys ih =>
    rw [loopFold_cons]
    rcases List.mem_cons.mp hx with h | h
    · subst h
      exact List.mem_append_left _ (hb s0)
    · exact List.mem_append_right _ (ih h ((body s0 y).1))

theorem chunkStarts_zero (s : ℕ) : chunkStarts s 0 = [] := by
  cases s with
  | zero => rfl
  | succ t =>
    simp [chunkStarts, Nat.div_eq_of_lt (Nat.lt_succ_self t)]

theorem chunkStarts_length (s n : ℕ) :
    (chunkStarts s n).length = (n + s - 1) / s := by
  simp [chunkStarts]

theorem mem_chunkStarts {r : ℕ} (s n : ℕ) (h : r < (n + s - 1) / s) :
    r * s ∈ chunkStarts s n := by
  simp only [chunkStarts, List.mem_map, List.mem_range]
  exact ⟨r, h, rfl⟩

theorem foldWr_single (w off : ℕ) (u : ℕ → ℚ) (b : ℕ → ℚ) (i : ℕ)
    (hi : i < w) :
    ((List.range w).foldl (fun b2 i2 => wr b2 (off + i2) (u i2)) b) (off + i)
      = u i := by
  induction w generalizing b with
  | zero => omega
  | succ t ih =>
    rw [List.range_succ, List.foldl_append]
    simp only [List.foldl_cons, List.foldl_nil]
    by_cases h : i = t
    · subst h
      simp [wr]
    · rw [wr, if_neg (by omega)]
      exact ih _ (by omega)

theorem foldWr_single_ne (w off : ℕ) (u : ℕ → ℚ) (b : ℕ → ℚ) (a : ℕ)
    (ha : ∀ i2, i2 < w → a ≠ off + i2) :
    ((List.range w).foldl (fun b2 i2 => wr b2 (off + i2) (u i2)) b) a = b a := by
  induction w with
  | zero => rfl
  | succ t ih =>
    rw [List.range_succ, List.foldl_append]
    simp only [List.foldl_cons, List.foldl_nil]
    rw [wr, if_neg (ha t (Nat.lt_succ_self t))]
    exact ih (fun i2 hi2 => ha i2 (by omega))

theorem foldWr_double (kk w off : ℕ) (v : ℕ → ℕ → ℚ) (b : ℕ → ℚ) (p i : ℕ)
    (hp : p < kk) (hi : i < w) :
    ((List.range kk).foldl (fun b2 p2 =>
        (List.range w).foldl
          (fun b3 i2 => wr b3 (off + p2 * w + i2) (v p2 i2)) b2) b)
      (off + p * w + i) = v p i := by
  induction kk generalizing b with
  | zero => omega
  | succ t ih =>
    rw [List.range_succ, List.foldl_append]
    simp only [List.foldl_cons, List.foldl_nil]
    by_cases h : p = t
    · subst h
      exact foldWr_single w (off + p * w) (v p) _ i hi
    · have hne : ∀ i2, i2 < w → off + p * w + i ≠ off + t * w + i2 := by
        intro i2 hi2
        have h1 : p * w + i < t * w := by
          calc p * w + i < p * w + w := by omega
            _ = (p + 1) * w := by ring
            _ ≤ t * w := Nat.mul_le_mul_right w (by omega)
        omega
      rw [foldWr_single_ne w (off + t * w) (v t) _ _ hne]
      exact ih _ (by omega)

theorem kacc_apply (k : ℕ) (mpA : ℕ → ℚ) (aoff : ℕ) (mpB : ℕ → ℚ) (boff : ℕ)
    (g0 : ℕ → ℕ → ℚ) (j t : ℕ) :
    kacc k mpA aoff mpB boff g0 j t
      = g0 j t + ((List.range k).map (fun p =>
          mpA (aoff + p * MR + t) * mpB (boff + p * NR + j))).sum := by
  induction k with
  | zero => simp [kacc]
  | succ q ih =>
    have hstep : kacc (q + 1) mpA aoff mpB boff g0
        = (fun j2 t2 => mpA (aoff + q * MR + t2) * mpB (boff + q * NR + j2)
            + kacc q mpA aoff mpB boff g0 j2 t2) := by
      unfold kacc
      rw [List.range_succ, List.foldl_append]
      rfl
    rw [hstep]
    simp only
    rw [ih, List.range_succ, List.map_append, List.sum_append]
    simp
    ring

/-! ### Event classifiers -/

/-- Recognizes a `packA_MCxKC` call event. -/
def Ev.isPackA : Ev → Bool
  | .packAcall => true
  | _ => false

/-- Recognizes a `packB_KCxNC` call event. -/
def Ev.isPackB : Ev → Bool
  | .packBcall => true
  | _ => false

/-- Recognizes an allocation of the packed A buffer. -/
def Ev.isAllocA : Ev → Bool
  | .allocA _ _ => true
  | _ => false

/-- Recognizes an allocation of the packed B buffer. -/
def Ev.isAllocB : Ev → Bool
  | .allocB _ _ => true
  | _ => false

/-- Recognizes the release of the packed A buffer. -/
def Ev.isFreeA : Ev → Bool
  | .freeA => true
  | _ => false

/-- Recognizes the release of the packed B buffer. -/
def Ev.isFreeB : Ev → Bool
  | .freeB => true
  | _ => false

/-- Recognizes a microkernel invocation. -/
def Ev.isKern : Ev → Bool
  | .kern => true
  | _ => false

/-- Recognizes a store of one element of C. -/
def Ev.isStoreC : Ev → Bool
  | .storeC _ => true
  | _ => false

/-- A predicate that is false on every event the microkernel can emit. -/
def NonKernelEv (p : Ev → Bool) : Prop :=
  p Ev.kern = false ∧ (∀ a, p (Ev.loadC a) = false) ∧
    (∀ a, p (Ev.storeC a) = false)

/-! ### Microkernel lemmas -/

theorem kernel_countP_zero (p : Ev → Bool) (hp : NonKernelEv p) (k : ℕ)
    (mpA : ℕ → ℚ) (aoff : ℕ) (mpB : ℕ → ℚ) (boff : ℕ) (C : ℤ → ℚ)
    (c rsC csC : ℤ) :
    ((dgemm_ukernel_packed k mpA aoff mpB boff C c rsC csC).2.countP p) = 0 := by
  obtain ⟨h1, h2, h3⟩ := hp
  simp [dgemm_ukernel_packed, vecEvs, List.countP_cons, List.countP_append,
    h1, h2, h3]

theorem kernel_mem_store (k : ℕ) (mpA : ℕ → ℚ) (aoff : ℕ) (mpB : ℕ → ℚ)
    (boff : ℕ) (C : ℤ → ℚ) (c rsC csC : ℤ) (j t : ℕ) (hj : j < 4)
    (ht : t < 4) :
    Ev.storeC (c + (j : ℤ) * csC + (t : ℤ))
        ∈ (dgemm_ukernel_packed k mpA aoff mpB boff C c rsC csC).2 ∧
      Ev.loadC (c + (j : ℤ) * csC + (t : ℤ))
        ∈ (dgemm_ukernel_packed k mpA aoff mpB boff C c rsC csC).2 := by
  interval_cases j <;> interval_cases t <;>
    (constructor <;> simp [dgemm_ukernel_packed, vecEvs])

/-! ### Per-level trace lemmas -/

theorem oneloop_countP_zero (p : Ev → Bool) (hp : NonKernelEv p) (m n k : ℕ)
    (At Bt : ℕ → ℚ) (boff : ℕ) (C : ℤ → ℚ) (c rsC csC : ℤ) :
    ((oneloop m n k At Bt boff C c rsC csC).2.countP p) = 0 := by
  unfold oneloop
  rw [loopFold_countP p _ _ _ (fun _ => 0)
    (fun s x _ => kernel_countP_zero p hp k At (x * k) Bt boff s
      (c + (x : ℤ) * rsC) rsC csC)]
  simp

theorem twoloops_countP_zero (p : Ev → Bool) (hp : NonKernelEv p) (m n k : ℕ)
    (At Bt : ℕ → ℚ) (C : ℤ → ℚ) (c rsC csC : ℤ) :
    ((twoloops m n k At Bt C c rsC csC).2.countP p) = 0 := by
  unfold twoloops
  rw [loopFold_countP p _ _ _ (fun _ => 0)
    (fun s x _ => oneloop_countP_zero p hp m (min NR (n - x)) k At Bt (x * k) s
      (c + (x : ℤ) * csC) rsC csC)]
  simp

theorem threeBody_countP (p : Ev → Bool) (hp : NonKernelEv p) (MC : ℕ)
    (m n k : ℕ) (A : ℤ → ℚ) (a rsA csA : ℤ) (Bt : ℕ → ℚ) (c rsC csC : ℤ)
    (st : (ℕ → ℚ) × (ℤ → ℚ)) (i : ℕ) :
    ((threeBody MC m n k A a rsA csA Bt c rsC csC st i).2.countP p)
      = (if p Ev.packAcall then 1 else 0) := by
  simp only [threeBody, List.countP_cons]
  rw [twoloops_countP_zero p hp]
  simp

theorem threeloops_countP_zero (p : Ev → Bool) (hp : NonKernelEv p)
    (hpa : p Ev.packAcall = false) (haa : ∀ s2 a2, p (Ev.allocA s2 a2) = false)
    (hfa : p Ev.freeA = false) (MC KC : ℕ) (m n k : ℕ) (A : ℤ → ℚ)
    (a rsA csA : ℤ) (Bt : ℕ → ℚ) (C : ℤ → ℚ) (c rsC csC : ℤ) (At0 : ℕ → ℚ) :
    ((threeloops MC KC m n k A a rsA csA Bt C c rsC csC At0).2.countP p) = 0 := by
  unfold threeloops threeLoop
  simp only [List.countP_cons, List.countP_append]
  rw [loopFold_countP p _ _ _ (fun _ => 0)
    (fun s x _ => by rw [threeBody_countP p hp]; simp [hpa])]
  simp [haa, hfa]

theorem threeloops_countP_packA (MC KC : ℕ) (m n k : ℕ) (A : ℤ → ℚ)
    (a rsA csA : ℤ) (Bt : ℕ → ℚ) (C : ℤ → ℚ) (c rsC csC : ℤ) (At0 : ℕ → ℚ) :
    ((threeloops MC KC m n k A a rsA csA Bt C c rsC csC At0).2.countP Ev.isPackA)
      = (m + MC - 1) / MC := by
  unfold threeloops threeLoop
  simp only [List.countP_cons, List.countP_append]
  rw [loopFold_countP Ev.isPackA _ _ _ (fun _ => 1)
    (fun s x _ => by
      rw [threeBody_countP Ev.isPackA ⟨rfl, fun _ => rfl, fun _ => rfl⟩]
      simp [Ev.isPackA])]
  simp [Ev.isPackA, ← chunkStarts_length]

theorem threeloops_countP_allocA (MC KC : ℕ) (m n k : ℕ) (A : ℤ → ℚ)
    (a rsA csA : ℤ) (Bt : ℕ → ℚ) (C : ℤ → ℚ) (c rsC csC : ℤ) (At0 : ℕ → ℚ) :
    ((threeloops MC KC m n k A a rsA csA Bt C c rsC csC At0).2.countP Ev.isAllocA)
      = 1 := by
  unfold threeloops threeLoop
  simp only [List.countP_cons, List.countP_append]
  rw [loopFold_countP Ev.isAllocA _ _ _ (fun _ => 0)
    (fun s x _ => by
      rw [threeBody_countP Ev.isAllocA ⟨rfl, fun _ => rfl, fun _ => rfl⟩]
      simp [Ev.isAllocA])]
  simp [Ev.isAllocA]

theorem threeloops_countP_freeA (MC KC : ℕ) (m n k : ℕ) (A : ℤ → ℚ)
    (a rsA csA : ℤ) (Bt : ℕ → ℚ) (C : ℤ → ℚ) (c rsC csC : ℤ) (At0 : ℕ → ℚ) :
    ((threeloops MC KC m n k A a rsA csA Bt C c rsC csC At0).2.countP Ev.isFreeA)
      = 1 := by
  unfold threeloops threeLoop
  simp only [List.countP_cons, List.countP_append]
  rw [loopFold_countP Ev.isFreeA _ _ _ (fun _ => 0)
    (fun s x _ => by
      rw [threeBody_countP Ev.isFreeA ⟨rfl, fun _ => rfl, fun _ => rfl⟩]
      simp [Ev.isFreeA])]
  simp [Ev.isFreeA]

theorem fourBody_countP (p : Ev → Bool) (hp : NonKernelEv p)
    (hpa : p Ev.packAcall = false) (haa : ∀ s2 a2, p (Ev.allocA s2 a2) = false)
    (hfa : p Ev.freeA = false) (MC NC KC : ℕ) (m n k : ℕ) (A : ℤ → ℚ)
    (a rsA csA : ℤ) (B : ℤ → ℚ) (b rsB csB : ℤ) (c rsC csC : ℤ) (At0 : ℕ → ℚ)
    (st : (ℕ → ℚ) × (ℤ → ℚ)) (x : ℕ) :
    ((fourBody MC NC KC m n k A a rsA csA B b rsB csB c rsC csC At0 st x).2.countP p)
      = (if p Ev.packBcall then 1 else 0) := by
  simp only [fourBody, List.countP_cons]
  rw [threeloops_countP_zero p hp hpa haa hfa]
  simp

theorem fourloops_countP_packB (MC NC KC : ℕ) (m n k : ℕ) (A : ℤ → ℚ)
    (a rsA csA : ℤ) (B : ℤ → ℚ) (b rsB csB : ℤ) (C : ℤ → ℚ) (c rsC csC : ℤ)
    (Bt0 At0 : ℕ → ℚ) :
    ((fourloops MC NC KC m n k A a rsA csA B b rsB csB C c rsC csC Bt0 At0).2.countP
        Ev.isPackB) = (k + KC - 1) / KC := by
  unfold fourloops fourLoop
  simp only [List.countP_cons, List.countP_append]
  rw [loopFold_countP Ev.isPackB _ _ _ (fun _ => 1)
    (fun s x _ => by
      rw [fourBody_countP Ev.isPackB ⟨rfl, fun _ => rfl, fun _ => rfl⟩ rfl
        (fun _ _ => rfl) rfl]
      simp [Ev.isPackB])]
  simp [Ev.isPackB, ← chunkStarts_length]

theorem fourloops_countP_allocB (MC NC KC : ℕ) (m n k : ℕ) (A : ℤ → ℚ)
    (a rsA csA : ℤ) (B : ℤ → ℚ) (b rsB csB : ℤ) (C : ℤ → ℚ) (c rsC csC : ℤ)
    (Bt0 At0 : ℕ → ℚ) :
    ((fourloops MC NC KC m n k A a rsA csA B b rsB csB C c rsC csC Bt0 At0).2.countP
        Ev.isAllocB) = 1 := by
  unfold fourloops fourLoop
  simp only [List.countP_cons, List.countP_append]
  rw [loopFold_countP Ev.isAllocB _ _ _ (fun _ => 0)
    (fun s x _ => by
      rw [fourBody_countP Ev.isAllocB ⟨rfl, fun _ => rfl, fun _ => rfl⟩ rfl
        (fun _ _ => rfl) rfl]
      simp [Ev.isAllocB])]
  simp [Ev.isAllocB]

theorem fourloops_countP_freeB (MC NC KC : ℕ) (m n k : ℕ) (A : ℤ → ℚ)
    (a rsA csA : ℤ) (B : ℤ → ℚ) (b rsB csB : ℤ) (C : ℤ → ℚ) (c rsC csC : ℤ)
    (Bt0 At0 : ℕ → ℚ) :
    ((fourloops MC NC KC m n k A a rsA csA B b rsB csB C c rsC csC Bt0 At0).2.countP
        Ev.isFreeB) = 1 := by
  unfold fourloops fourLoop
  simp only [List.countP_cons, List.countP_append]
  rw [loopFold_countP Ev.isFreeB _ _ _ (fun _ => 0)
    (fun s x _ => by
      rw [fourBody_countP Ev.isFreeB ⟨rfl, fun _ => rfl, fun _ => rfl⟩ rfl
        (fun _ _ => rfl) rfl]
      simp [Ev.isFreeB])]
  simp [Ev.isFreeB]

/-! ### Degenerate extents -/

theorem threeloops_m_zero (MC KC : ℕ) (n k : ℕ) (A : ℤ → ℚ) (a rsA csA : ℤ)
    (Bt : ℕ → ℚ) (C : ℤ → ℚ) (c rsC csC : ℤ) (At0 : ℕ → ℚ) :
    threeloops MC KC 0 n k A a rsA csA Bt C c rsC csC At0
      = (C, [Ev.allocA (MC * KC * 8) 64, Ev.freeA]) := by
  unfold threeloops threeLoop
  rw [chunkStarts_zero]
  rfl

theorem fourloops_k_zero (MC NC KC : ℕ) (m n : ℕ) (A : ℤ → ℚ) (a rsA csA : ℤ)
    (B : ℤ → ℚ) (b rsB csB : ℤ) (C : ℤ → ℚ) (c rsC csC : ℤ) (Bt0 At0 : ℕ → ℚ) :
    fourloops MC NC KC m n 0 A a rsA csA B b rsB csB C c rsC csC Bt0 At0
      = (C, [Ev.allocB (KC * NC * 8) 64, Ev.freeB]) := by
  unfold fourloops fourLoop
  rw [chunkStarts_zero]
  rfl

theorem fiveloops_n_zero (MC NC KC : ℕ) (m k : ℕ) (A : ℤ → ℚ) (a rsA csA : ℤ)
    (B : ℤ → ℚ) (b rsB csB : ℤ) (C : ℤ → ℚ) (c rsC csC : ℤ) (Bt0 At0 : ℕ → ℚ) :
    fiveloops MC NC KC m 0 k A a rsA csA B b rsB csB C c rsC csC Bt0 At0
      = (C, []) := by
  unfold fiveloops
  rw [chunkStarts_zero]
  rfl

theorem fourloops_m_zero (MC NC KC : ℕ) (n k : ℕ) (A : ℤ → ℚ) (a rsA csA : ℤ)
    (B : ℤ → ℚ) (b rsB csB : ℤ) (C : ℤ → ℚ) (c rsC csC : ℤ) (Bt0 At0 : ℕ → ℚ) :
    (fourloops MC NC KC 0 n k A a rsA csA B b rsB csB C c rsC csC Bt0 At0).1 = C
      ∧ ((fourloops MC NC KC 0 n k A a rsA csA B b rsB csB C c rsC csC Bt0 At0).2.countP
          Ev.isKern) = 0
      ∧ ((fourloops MC NC KC 0 n k A a rsA csA B b rsB csB C c rsC csC Bt0 At0).2.countP
          Ev.isStoreC) = 0 := by
  refine ⟨?_, ?_, ?_⟩
  · unfold fourloops fourLoop
    refine loopFold_fst_invariant (fun st => st.2 = C) _ (Bt0, C)
      (fourBody MC NC KC 0 n k A a rsA csA B b rsB csB c rsC csC At0) ?_ rfl
    intro s x _ hP
    simp only [fourBody]
    rw [threeloops_m_zero]
    exact hP
  · unfold fourloops fourLoop
    simp only [List.countP_cons, List.countP_append]
    rw [loopFold_countP Ev.isKern _ _ _ (fun _ => 0)
      (fun s x _ => by
        simp only [fourBody, List.countP_cons]
        rw [threeloops_m_zero]
        simp [Ev.isKern, List.countP_cons, List.countP_nil])]
    simp [Ev.isKern]
  · unfold fourloops fourLoop
    simp only [List.countP_cons, List.countP_append]
    rw [loopFold_countP Ev.isStoreC _ _ _ (fun _ => 0)
      (fun s x _ => by
        simp only [fourBody, List.countP_cons]
        rw [threeloops_m_zero]
        simp [Ev.isStoreC, List.countP_cons, List.countP_nil])]
    simp [Ev.isStoreC]

theorem fiveloops_preserve (MC NC KC : ℕ) (m n k : ℕ) (A : ℤ → ℚ)
    (a rsA csA : ℤ) (B : ℤ → ℚ) (b rsB csB : ℤ) (C : ℤ → ℚ) (c rsC csC : ℤ)
    (Bt0 At0 : ℕ → ℚ)
    (hbody : ∀ (Cm : ℤ → ℚ) (j : ℕ),
      (fourloops MC NC KC m (min NC (n - j)) k A a rsA csA B (b + (j : ℤ) * csB)
          rsB csB Cm (c + (j : ℤ) * csC) rsC csC Bt0 At0).1 = Cm
      ∧ ((fourloops MC NC KC m (min NC (n - j)) k A a rsA csA B (b + (j : ℤ) * csB)
          rsB csB Cm (c + (j : ℤ) * csC) rsC csC Bt0 At0).2.countP Ev.isKern) = 0
      ∧ ((fourloops MC NC KC m (min NC (n - j)) k A a rsA csA B (b + (j : ℤ) * csB)
          rsB csB Cm (c + (j : ℤ) * csC) rsC csC Bt0 At0).2.countP Ev.isStoreC) = 0) :
    (fiveloops MC NC KC m n k A a rsA csA B b rsB csB C c rsC csC Bt0 At0).1 = C
      ∧ ((fiveloops MC NC KC m n k A a rsA csA B b rsB csB C c rsC csC Bt0 At0).2.countP
          Ev.isKern) = 0
      ∧ ((fiveloops MC NC KC m n k A a rsA csA B b rsB csB C c rsC csC Bt0 At0).2.countP
          Ev.isStoreC) = 0 := by
  refine ⟨?_, ?_, ?_⟩
  · unfold fiveloops
    exact loopFold_fst_invariant (fun s => s = C) _ C _
      (fun s x _ hP => by rw [(hbody s x).1, hP]) rfl
  · unfold fiveloops
    rw [loopFold_countP Ev.isKern _ _ _ (fun _ => 0)
      (fun s x _ => (hbody s x).2.1)]
    simp
  · unfold fiveloops
    rw [loopFold_countP Ev.isStoreC _ _ _ (fun _ => 0)
      (fun s x _ => (hbody s x).2.2)]
    simp

/-! ### Claim theorems -/

/-- C7: in `packA_MRxKC` the branch condition `m = MR` is an assignment,
always taken, so for every requested panel height `m` the routine behaves
identically (it ignores `m`) and copies the full `MR` rows
`A[a + i*rsA + p*csA]`, `i < MR`, per shared-dimension step `p` — also for
`i ≥ m`, i.e. beyond the requested panel — and the zero-padding branch is
unreachable. -/
theorem packA_MRxKC_always_full_width (k : ℕ) (A : ℤ → ℚ) (a rsA csA : ℤ)
    (At : ℕ → ℚ) (off : ℕ) :
    (∀ m1 m2 : ℕ, packA_MRxKC m1 k A a rsA csA At off
        = packA_MRxKC m2 k A a rsA csA At off)
    ∧ ∀ (m p i : ℕ), p < k → i < MR →
        packA_MRxKC m k A a rsA csA At off (off + p * MR + i)
          = A (a + (i : ℤ) * rsA + (p : ℤ) * csA) := by
  constructor
  · intro m1 m2
    rfl
  · intro m p i hp hi
    unfold packA_MRxKC
    rw [if_pos (by decide)]
    exact foldWr_double k MR off
      (fun p2 i2 => A (a + (i2 : ℤ) * rsA + (p2 : ℤ) * csA)) At p i hp hi

/-- Witness for C7: packing a panel of requested height `1` (with `k = 1`,
A identically `1`, a zeroed buffer) still fills position `1` — a position
the spec reserves for zero padding — with the value read from A. -/
theorem packA_MRxKC_always_full_width_witness :
    packA_MRxKC 1 1 (fun _ => (1 : ℚ)) 0 1 1 (fun _ => 0) 0 1 = 1 := by
  have h := (packA_MRxKC_always_full_width 1 (fun _ => (1 : ℚ)) 0 1 1
    (fun _ => 0) 0).2 1 0 1 (by norm_num) (by norm_num [MR])
  simpa [MR] using h

/-- C3 fails on the code: packing the boundary A panel of height `m = 1`
(`k = 1`, A identically `1`, buffer zero-initialised), the packed position
`1` — which lies beyond the source elements and must hold exactly `0.0` —
holds the value `1` read from outside the panel, because the dead-branch
bug `m = MR` makes `packA_MRxKC` copy all `MR` rows. -/
theorem packA_boundary_padding_not_zero :
    packA_MRxKC 1 1 (fun _ => (1 : ℚ)) 0 1 1 (fun _ => 0) 0 1 = 1
      ∧ ((1 : ℚ) ≠ 0) := by
  refine ⟨?_, by norm_num⟩
  norm_num [packA_MRxKC, MR, wr, show List.range 1 = [0] from rfl,
    show List.range 4 = [0, 1, 2, 3] from rfl]

set_option maxHeartbeats 4000000 in
set_option maxRecDepth 4000 in
/-- C1 fails on the code: for `M = 5, N = 2, K = 1` with column-major views
(`rsC = 1`, `csC = 5`), A and B identically `1` and C initially `0`, the
kernel leaves `C(0,1)` (address `5`) equal to `2`, while the textbook
triple loop yields `1`: the boundary row-panel of A is packed via the
always-full-width `packA_MRxKC`, so out-of-panel values of A are multiplied
into the part of the 4×4 C tile that overlaps the next column. -/
theorem fiveloops_boundary_not_textbook :
    (fiveloopsZ 8 8 8 5 2 1 (fun _ => 1) 0 1 5 (fun _ => 1) 0 1 1
        (fun _ => 0) 0 1 5 (fun _ => 0) (fun _ => 0)).1 5 = 2
    ∧ gemmRefSpec 5 2 1 (fun _ => 1) 0 1 5 (fun _ => 1) 0 1 1
        (fun _ => 0) 0 1 5 5 = 1
    ∧ ((2 : ℚ) ≠ 1) := by
  refine ⟨?_, ?_, by norm_num⟩
  · norm_num [fiveloopsZ, fiveloops, fourloops, fourLoop, fourBody, threeloops,
      threeLoop, threeBody, twoloops, oneloop, loopFold, chunkStarts,
      packB_KCxNC, packB_KCxNR, packA_MCxKC, packA_MRxKC, dgemm_ukernel_packed,
      storeVec, wr, kacc, loadTile, MR, NR, vecEvs, min_def,
      show Int.toNat 5 = 5 from rfl, show Int.toNat 2 = 2 from rfl,
      show Int.toNat 1 = 1 from rfl,
      show List.range 1 = [0] from rfl, show List.range 2 = [0, 1] from rfl,
      show List.range 3 = [0, 1, 2] from rfl,
      show List.range 4 = [0, 1, 2, 3] from rfl]
  · norm_num [gemmRefSpec, wr, min_def,
      show List.range 1 = [0] from rfl, show List.range 2 = [0, 1] from rfl,
      show List.range 5 = [0, 1, 2, 3, 4] from rfl]

set_option maxHeartbeats 4000000 in
set_option maxRecDepth 4000 in
/-- C2 fails on the code: for `M = N = K = 1` (views with `rsC = 1`,
`csC = 4`, A and B identically `1`, C initially `0`), `C[0,0]` (address
`0`) is correctly updated to `C + A*B = 1`, but address `1` — which the
claim requires to stay unchanged — also changes from `0` to `1`, because
the microkernel loads/stores the full 4×4 tile and the A panel was packed
full-width with out-of-view values instead of zeros. -/
theorem fiveloops_1x1_touches_neighbours :
    (fiveloopsZ 8 8 8 1 1 1 (fun _ => 1) 0 1 1 (fun _ => 1) 0 1 1
        (fun _ => 0) 0 1 4 (fun _ => 0) (fun _ => 0)).1 0 = 1
    ∧ (fiveloopsZ 8 8 8 1 1 1 (fun _ => 1) 0 1 1 (fun _ => 1) 0 1 1
        (fun _ => 0) 0 1 4 (fun _ => 0) (fun _ => 0)).1 1 = 1
    ∧ ((1 : ℚ) ≠ 0) := by
  refine ⟨?_, ?_, by norm_num⟩ <;>
    norm_num [fiveloopsZ, fiveloops, fourloops, fourLoop, fourBody, threeloops,
      threeLoop, threeBody, twoloops, oneloop, loopFold, chunkStarts,
      packB_KCxNC, packB_KCxNR, packA_MCxKC, packA_MRxKC, dgemm_ukernel_packed,
      storeVec, wr, kacc, loadTile, MR, NR, vecEvs, min_def,
      show Int.toNat 1 = 1 from rfl,
      show List.range 1 = [0] from rfl, show List.range 2 = [0, 1] from rfl,
      show List.range 3 = [0, 1, 2] from rfl,
      show List.range 4 = [0, 1, 2, 3] from rfl]

set_option maxHeartbeats 8000000 in
set_option maxRecDepth 8000 in
/-- C5 fails on the code: on the `M = 5, N = 2, K = 1` column-major
instance of `fiveloops_boundary_not_textbook`, two successive calls leave
`C(0,1)` (address `5`) equal to `4`, whereas `2·(A·B) + C_original` there
is `2·1 + 0 = 2`. -/
theorem fiveloops_twice_not_twice_AB :
    (fiveloopsZ 8 8 8 5 2 1 (fun _ => 1) 0 1 5 (fun _ => 1) 0 1 1
        ((fiveloopsZ 8 8 8 5 2 1 (fun _ => 1) 0 1 5 (fun _ => 1) 0 1 1
            (fun _ => 0) 0 1 5 (fun _ => 0) (fun _ => 0)).1)
        0 1 5 (fun _ => 0) (fun _ => 0)).1 5 = 4
    ∧ gemmRefSpec 5 2 1 (fun _ => 1) 0 1 5 (fun _ => 1) 0 1 1
        (fun _ => 0) 0 1 5 5 = 1
    ∧ ((4 : ℚ) ≠ 2 * 1 + 0) := by
  refine ⟨?_, ?_, by norm_num⟩
  · norm_num [fiveloopsZ, fiveloops, fourloops, fourLoop, fourBody, threeloops,
      threeLoop, threeBody, twoloops, oneloop, loopFold, chunkStarts,
      packB_KCxNC, packB_KCxNR, packA_MCxKC, packA_MRxKC, dgemm_ukernel_packed,
      storeVec, wr, kacc, loadTile, MR, NR, vecEvs, min_def,
      show Int.toNat 5 = 5 from rfl, show Int.toNat 2 = 2 from rfl,
      show Int.toNat 1 = 1 from rfl,
      show List.range 1 = [0] from rfl, show List.range 2 = [0, 1] from rfl,
      show List.range 3 = [0, 1, 2] from rfl,
      show List.range 4 = [0, 1, 2, 3] from rfl]
  · norm_num [gemmRefSpec, wr, min_def,
      show List.range 1 = [0] from rfl, show List.range 2 = [0, 1] from rfl,
      show List.range 5 = [0, 1, 2, 3, 4] from rfl]

/-- C8: within one `fourloops` invocation, `packB_KCxNC` is called exactly
`⌈k/KC⌉` times (once per `KC`-chunk of the shared dimension); within one
`threeloops` invocation, `packA_MCxKC` is called exactly `⌈m/MC⌉` times
(once per `MC`-chunk of M); and the two inner register-block loops
(`twoloops`, `oneloop`) invoke neither packing routine. -/
theorem pack_calls_once_per_chunk (MC NC KC : ℕ) (m n k : ℕ) (A : ℤ → ℚ)
    (a rsA csA : ℤ) (B : ℤ → ℚ) (b rsB csB : ℤ) (Bt At : ℕ → ℚ) (boff : ℕ)
    (C : ℤ → ℚ) (c rsC csC : ℤ) (Bt0 At0 : ℕ → ℚ) :
    ((fourloops MC NC KC m n k A a rsA csA B b rsB csB C c rsC csC Bt0 At0).2.countP
        Ev.isPackB) = (k + KC - 1) / KC
    ∧ ((threeloops MC KC m n k A a rsA csA Bt C c rsC csC At0).2.countP
        Ev.isPackA) = (m + MC - 1) / MC
    ∧ ((twoloops m n k At Bt C c rsC csC).2.countP Ev.isPackA) = 0
    ∧ ((twoloops m n k At Bt C c rsC csC).2.countP Ev.isPackB) = 0
    ∧ ((oneloop m n k At Bt boff C c rsC csC).2.countP Ev.isPackA) = 0
    ∧ ((oneloop m n k At Bt boff C c rsC csC).2.countP Ev.isPackB) = 0 := by
  refine ⟨fourloops_countP_packB MC NC KC m n k A a rsA csA B b rsB csB C c
      rsC csC Bt0 At0,
    threeloops_countP_packA MC KC m n k A a rsA csA Bt C c rsC csC At0,
    twoloops_countP_zero Ev.isPackA ⟨rfl, fun _ => rfl, fun _ => rfl⟩ m n k At
      Bt C c rsC csC,
    twoloops_countP_zero Ev.isPackB ⟨rfl, fun _ => rfl, fun _ => rfl⟩ m n k At
      Bt C c rsC csC,
    oneloop_countP_zero Ev.isPackA ⟨rfl, fun _ => rfl, fun _ => rfl⟩ m n k At
      Bt boff C c rsC csC,
    oneloop_countP_zero Ev.isPackB ⟨rfl, fun _ => rfl, fun _ => rfl⟩ m n k At
      Bt boff C c rsC csC⟩

/-- C10: per `fourloops` invocation the packed B buffer is allocated
exactly once — as its very first action, requesting `KC*NC` doubles
(`KC*NC*8` bytes) at 64-byte alignment — and freed exactly once, as its
very last action before returning; symmetrically, per `threeloops`
invocation the packed A buffer is allocated exactly once (`MC*KC` doubles,
64-byte aligned) first and freed exactly once last. -/
theorem packed_buffer_lifecycle (MC NC KC : ℕ) (m n k : ℕ) (A : ℤ → ℚ)
    (a rsA csA : ℤ) (B : ℤ → ℚ) (b rsB csB : ℤ) (Bt : ℕ → ℚ) (C : ℤ → ℚ)
    (c rsC csC : ℤ) (Bt0 At0 : ℕ → ℚ) :
    ((fourloops MC NC KC m n k A a rsA csA B b rsB csB C c rsC csC Bt0 At0).2.countP
        Ev.isAllocB) = 1
    ∧ ((fourloops MC NC KC m n k A a rsA csA B b rsB csB C c rsC csC Bt0 At0).2.countP
        Ev.isFreeB) = 1
    ∧ (fourloops MC NC KC m n k A a rsA csA B b rsB csB C c rsC csC Bt0 At0).2.head?
        = some (Ev.allocB (KC * NC * 8) 64)
    ∧ (fourloops MC NC KC m n k A a rsA csA B b rsB csB C c rsC csC Bt0 At0).2.getLast?
        = some Ev.freeB
    ∧ ((threeloops MC KC m n k A a rsA csA Bt C c rsC csC At0).2.countP
        Ev.isAllocA) = 1
    ∧ ((threeloops MC KC m n k A a rsA csA Bt C c rsC csC At0).2.countP
        Ev.isFreeA) = 1
    ∧ (threeloops MC KC m n k A a rsA csA Bt C c rsC csC At0).2.head?
        = some (Ev.allocA (MC * KC * 8) 64)
    ∧ (threeloops MC KC m n k A a rsA csA Bt C c rsC csC At0).2.getLast?
        = some Ev.freeA := by
  refine ⟨fourloops_countP_allocB MC NC KC m n k A a rsA csA B b rsB csB C c
      rsC csC Bt0 At0,
    fourloops_countP_freeB MC NC KC m n k A a rsA csA B b rsB csB C c rsC csC
      Bt0 At0, rfl, ?_,
    threeloops_countP_allocA MC KC m n k A a rsA csA Bt C c rsC csC At0,
    threeloops_countP_freeA MC KC m n k A a rsA csA Bt C c rsC csC At0,
    rfl, ?_⟩
  · show (Ev.allocB (KC * NC * 8) 64 ::
      ((fourLoop MC NC KC m n k A a rsA csA B b rsB csB C c rsC csC Bt0 At0).2 ++
        [Ev.freeB])).getLast? = some Ev.freeB
    rw [← List.cons_append, List.getLast?_concat]
  · show (Ev.allocA (MC * KC * 8) 64 ::
      ((threeLoop MC m n k A a rsA csA Bt C c rsC csC At0).2 ++
        [Ev.freeA])).getLast? = some Ev.freeA
    rw [← List.cons_append, List.getLast?_concat]

/-- C9, amended: if any of the `int` dimensions is non-positive, the entry
point performs no arithmetic on C — the microkernel is never invoked and
no element of C is stored — and C is left completely unchanged.  (The loop
levels governed by the remaining positive dimensions still iterate and may
still pack B, so not every loop level degenerates to zero iterations.) -/
theorem fiveloopsZ_nonpositive_dims (MC NC KC : ℕ) (m n k : ℤ) (A : ℤ → ℚ)
    (a rsA csA : ℤ) (B : ℤ → ℚ) (b rsB csB : ℤ) (C : ℤ → ℚ) (c rsC csC : ℤ)
    (Bt0 At0 : ℕ → ℚ) (h : m ≤ 0 ∨ n ≤ 0 ∨ k ≤ 0) :
    (fiveloopsZ MC NC KC m n k A a rsA csA B b rsB csB C c rsC csC Bt0 At0).1 = C
    ∧ ((fiveloopsZ MC NC KC m n k A a rsA csA B b rsB csB C c rsC csC Bt0 At0).2.countP
        Ev.isKern) = 0
    ∧ ((fiveloopsZ MC NC KC m n k A a rsA csA B b rsB csB C c rsC csC Bt0 At0).2.countP
        Ev.isStoreC) = 0 := by
  rcases h with h | h | h
  · have hm : m.toNat = 0 := by omega
    unfold fiveloopsZ
    rw [hm]
    exact fiveloops_preserve MC NC KC 0 n.toNat k.toNat A a rsA csA B b rsB
      csB C c rsC csC Bt0 At0
      (fun Cm j => fourloops_m_zero MC NC KC (min NC (n.toNat - j)) k.toNat A
        a rsA csA B (b + (j : ℤ) * csB) rsB csB Cm (c + (j : ℤ) * csC) rsC csC
        Bt0 At0)
  · have hn : n.toNat = 0 := by omega
    unfold fiveloopsZ
    rw [hn, fiveloops_n_zero]
    exact ⟨rfl, rfl, rfl⟩
  · have hk : k.toNat = 0 := by omega
    unfold fiveloopsZ
    rw [hk]
    refine fiveloops_preserve MC NC KC m.toNat n.toNat 0 A a rsA csA B b rsB
      csB C c rsC csC Bt0 At0 (fun Cm j => ?_)
    rw [fourloops_k_zero]
    exact ⟨rfl, by simp [Ev.isKern, List.countP_cons, List.countP_nil],
      by simp [Ev.isStoreC, List.countP_cons, List.countP_nil]⟩

/-- Witness for C9: with `m = -1` (and positive `n`, `k`) the entry point
leaves the zero C memory unchanged. -/
theorem fiveloopsZ_nonpositive_dims_witness :
    ((-1 : ℤ) ≤ 0)
    ∧ (fiveloopsZ 8 8 8 (-1) 2 3 (fun _ => 1) 0 1 1 (fun _ => 1) 0 1 1
        (fun _ => 0) 0 1 1 (fun _ => 0) (fun _ => 0)).1 = (fun _ => (0 : ℚ)) :=
  ⟨by norm_num,
   (fiveloopsZ_nonpositive_dims 8 8 8 (-1) 2 3 (fun _ => 1) 0 1 1
     (fun _ => 1) 0 1 1 (fun _ => 0) 0 1 1 (fun _ => 0) (fun _ => 0)
     (Or.inl (by norm_num))).1⟩

/-- Counterexample to C9 as stated: with `m = 0` but `n = k = 1`, it is not
the case that every loop level degenerates to zero iterations — the
K-partition loop body still runs (its `packB_KCxNC` call event appears in
the trace, and the trace is not empty), even though C is untouched. -/
theorem fiveloopsZ_m_zero_still_packs :
    ((fiveloopsZ 8 8 8 0 1 1 (fun _ => 0) 0 1 1 (fun _ => 0) 0 1 1
        (fun _ => 0) 0 1 1 (fun _ => 0) (fun _ => 0)).2.countP Ev.isPackB) = 1
    ∧ (fiveloopsZ 8 8 8 0 1 1 (fun _ => 0) 0 1 1 (fun _ => 0) 0 1 1
        (fun _ => 0) 0 1 1 (fun _ => 0) (fun _ => 0)).2 ≠ [] := by decide

theorem zero_mem_chunkStarts (s n : ℕ) (hs : 0 < s) (hn : 0 < n) :
    0 ∈ chunkStarts s n := by
  have h1 : 1 ≤ (n + s - 1) / s := by
    rw [Nat.le_div_iff_mul_le hs]
    omega
  simpa using @mem_chunkStarts 0 s n h1

theorem twoloops_kernel_ev_mem (m n k : ℕ) (At Bt : ℕ → ℚ) (C : ℤ → ℚ)
    (c rsC csC : ℤ) {j20 i0 : ℕ} (hj20 : j20 ∈ chunkStarts NR n)
    (hi0 : i0 ∈ chunkStarts MR m) (j t : ℕ) (hj : j < 4) (ht : t < 4) :
    Ev.storeC (c + (j20 : ℤ) * csC + (i0 : ℤ) * rsC + (j : ℤ) * csC + (t : ℤ))
        ∈ (twoloops m n k At Bt C c rsC csC).2
    ∧ Ev.loadC (c + (j20 : ℤ) * csC + (i0 : ℤ) * rsC + (j : ℤ) * csC + (t : ℤ))
        ∈ (twoloops m n k At Bt C c rsC csC).2 := by
  constructor <;>
  · unfold twoloops
    refine loopFold_mem _ hj20 _ _ (fun Cm => ?_)
    unfold oneloop
    refine loopFold_mem _ hi0 _ _ (fun Cm2 => ?_)
    have h := kernel_mem_store k At (i0 * k) Bt (j20 * k) Cm2
      (c + (j20 : ℤ) * csC + (i0 : ℤ) * rsC) rsC csC j t hj ht
    first
      | exact h.1
      | exact h.2

theorem trace_into_fiveloops (ev : Ev) (MC NC KC : ℕ) (m n k : ℕ)
    (A : ℤ → ℚ) (a rsA csA : ℤ) (B : ℤ → ℚ) (b rsB csB : ℤ) (C : ℤ → ℚ)
    (c rsC csC : ℤ) (Bt0 At0 : ℕ → ℚ) (hMC : 0 < MC) (hNC : 0 < NC)
    (hKC : 0 < KC) (hm : 0 < m) (hn : 0 < n) (hk : 0 < k)
    (h2l : ∀ (At2 Bt2 : ℕ → ℚ) (Cm : ℤ → ℚ),
      ev ∈ (twoloops (min MC (m - 0)) (min NC (n - 0)) (min KC (k - 0)) At2 Bt2
        Cm (c + ((0 : ℕ) : ℤ) * csC + ((0 : ℕ) : ℤ) * rsC) rsC csC).2) :
    ev ∈ (fiveloops MC NC KC m n k A a rsA csA B b rsB csB C c rsC csC
      Bt0 At0).2 := by
  unfold fiveloops
  refine loopFold_mem ev (zero_mem_chunkStarts NC n hNC hn) C _ (fun Cm => ?_)
  unfold fourloops
  refine List.mem_cons_of_mem _ (List.mem_append_left _ ?_)
  unfold fourLoop
  refine loopFold_mem ev (zero_mem_chunkStarts KC k hKC hk) _ _ (fun st => ?_)
  simp only [fourBody]
  refine List.mem_cons_of_mem _ ?_
  unfold threeloops
  refine List.mem_cons_of_mem _ (List.mem_append_left _ ?_)
  unfold threeLoop
  refine loopFold_mem ev (zero_mem_chunkStarts MC m hMC hm) _ _ (fun st2 => ?_)
  simp only [threeBody]
  refine List.mem_cons_of_mem _ ?_
  exact h2l _ _ _

/-- C4: for every `k ≥ 0` the microkernel loads the current 4×4 tile of C
at entry, performs exactly `k` FMA steps — step `p` multiplies the `MR`
contiguous values at `leftPanel + p*MR` by the broadcast scalars at
`rightPanel + p*NR + col` — and stores the accumulators back, so (when the
four column stores do not overlap, i.e. `4 ≤ csC`) the tile element in
column `j`, lane `t` becomes
`C_tile + Σ_{p<k} leftPanel[p*MR + t] * rightPanel[p*NR + j]` exactly
(each FMA term contributing with a single rounding, which over `ℚ` is
exact). -/
theorem microkernel_rank_k_update (k : ℕ) (mpA : ℕ → ℚ) (aoff : ℕ)
    (mpB : ℕ → ℚ) (boff : ℕ) (C : ℤ → ℚ) (c rsC csC : ℤ) (hcs : 4 ≤ csC)
    (j t : ℕ) (hj : j < 4) (ht : t < 4) :
    (dgemm_ukernel_packed k mpA aoff mpB boff C c rsC csC).1
        (c + (j : ℤ) * csC + (t : ℤ))
      = C (c + (j : ℤ) * csC + (t : ℤ))
        + ((List.range k).map (fun p =>
            mpA (aoff + p * MR + t) * mpB (boff + p * NR + j))).sum := by
  have hread : ∀ (f : ℤ → ℚ) (a : ℤ) (v : ℕ → ℚ) (t2 : ℕ), t2 < 4 →
      storeVec f a v (a + (t2 : ℤ)) = v t2 := by
    intro f a v t2 ht2
    interval_cases t2 <;>
      (simp only [storeVec, wr]
       split_ifs <;> first | rfl | omega)
  have hskip : ∀ (f : ℤ → ℚ) (a : ℤ) (v : ℕ → ℚ) (x : ℤ), x ≠ a →
      x ≠ a + 1 → x ≠ a + 2 → x ≠ a + 3 → storeVec f a v x = f x := by
    intro f a v x h0 h1 h2 h3
    simp only [storeVec, wr]
    split_ifs <;> first | rfl | omega
  simp only [dgemm_ukernel_packed]
  interval_cases j
  · rw [hskip _ _ _ _ (by omega) (by omega) (by omega) (by omega),
        hskip _ _ _ _ (by omega) (by omega) (by omega) (by omega),
        hskip _ _ _ _ (by omega) (by omega) (by omega) (by omega),
        show c + ((0 : ℕ) : ℤ) * csC + (t : ℤ) = c + 0 * csC + (t : ℤ) from by
          push_cast; ring,
        hread _ _ _ t ht, kacc_apply]
    simp only [loadTile]
    try push_cast
    try norm_num
  · rw [hskip _ _ _ _ (by omega) (by omega) (by omega) (by omega),
        hskip _ _ _ _ (by omega) (by omega) (by omega) (by omega),
        show c + ((1 : ℕ) : ℤ) * csC + (t : ℤ) = c + 1 * csC + (t : ℤ) from by
          push_cast; ring,
        hread _ _ _ t ht, kacc_apply]
    simp only [loadTile]
    try push_cast
    try norm_num
  · rw [hskip _ _ _ _ (by omega) (by omega) (by omega) (by omega),
        show c + ((2 : ℕ) : ℤ) * csC + (t : ℤ) = c + 2 * csC + (t : ℤ) from by
          push_cast; ring,
        hread _ _ _ t ht, kacc_apply]
    simp only [loadTile]
    try push_cast
    try norm_num
  · rw [show c + ((3 : ℕ) : ℤ) * csC + (t : ℤ) = c + 3 * csC + (t : ℤ) from by
          push_cast; ring,
        hread _ _ _ t ht, kacc_apply]
    simp only [loadTile]
    try push_cast
    try norm_num

/-- Witness for C4: one FMA step on an all-ones instance (`csC = 4`):
the element of C at column 1, lane 0 (address 4) becomes `0 + 1*1 = 1`. -/
theorem microkernel_rank_k_update_witness :
    (dgemm_ukernel_packed 1 (fun _ => 1) 0 (fun _ => 1) 0 (fun _ => 0)
        0 1 4).1 4 = 1 := by
  have h := microkernel_rank_k_update 1 (fun _ => 1) 0 (fun _ => 1) 0
    (fun _ => 0) 0 1 4 (by norm_num) 1 0 (by norm_num) (by norm_num)
  norm_num [show List.range 1 = [0] from rfl, MR, NR] at h
  exact h

/-- C6: the microkernel unconditionally reads and writes the full 4×4
block of C it is handed — all sixteen element addresses `c + j*csC + t`
(`j, t < 4`) occur as loads and as stores of every invocation, whatever
`k` or the remainder situation — and `oneloop`/`twoloops` invoke it
without their computed remainder extents, so whenever the M extent is
positive but not a multiple of 4 (and likewise for the N extent), the
entry point reads and writes an element of C outside the logical `m × n`
sub-block.  The out-of-block statements are made for unit row stride
(`rsC = 1`) and a column stride `csC ≥ m + 3` (a column-major view
embedded in a larger buffer), so that distinct tile positions are distinct
memory addresses. -/
theorem microkernel_full_tile_and_oob :
    (∀ (k : ℕ) (mpA : ℕ → ℚ) (aoff : ℕ) (mpB : ℕ → ℚ) (boff : ℕ)
        (C : ℤ → ℚ) (c rsC csC : ℤ) (j t : ℕ), j < 4 → t < 4 →
        Ev.storeC (c + (j : ℤ) * csC + (t : ℤ))
            ∈ (dgemm_ukernel_packed k mpA aoff mpB boff C c rsC csC).2
        ∧ Ev.loadC (c + (j : ℤ) * csC + (t : ℤ))
            ∈ (dgemm_ukernel_packed k mpA aoff mpB boff C c rsC csC).2)
    ∧ (∀ (MC NC KC m n k : ℕ) (A : ℤ → ℚ) (a rsA csA : ℤ) (B : ℤ → ℚ)
        (b rsB csB : ℤ) (C : ℤ → ℚ) (c csC : ℤ) (Bt0 At0 : ℕ → ℚ),
        0 < MC → 0 < NC → 0 < KC → 0 < m → 0 < n → 0 < k → m ≤ MC →
        ¬ (4 ∣ m) → (m : ℤ) + 3 ≤ csC →
        ∃ ad : ℤ,
          Ev.storeC ad ∈ (fiveloops MC NC KC m n k A a rsA csA B b rsB csB C c
            1 csC Bt0 At0).2
          ∧ Ev.loadC ad ∈ (fiveloops MC NC KC m n k A a rsA csA B b rsB csB C c
            1 csC Bt0 At0).2
          ∧ ∀ i j2 : ℕ, i < m → j2 < n → ad ≠ c + (i : ℤ) + (j2 : ℤ) * csC)
    ∧ (∀ (MC NC KC m n k : ℕ) (A : ℤ → ℚ) (a rsA csA : ℤ) (B : ℤ → ℚ)
        (b rsB csB : ℤ) (C : ℤ → ℚ) (c csC : ℤ) (Bt0 At0 : ℕ → ℚ),
        0 < MC → 0 < NC → 0 < KC → 0 < m → 0 < n → 0 < k → n ≤ NC →
        ¬ (4 ∣ n) → (m : ℤ) + 3 ≤ csC →
        ∃ ad : ℤ,
          Ev.storeC ad ∈ (fiveloops MC NC KC m n k A a rsA csA B b rsB csB C c
            1 csC Bt0 At0).2
          ∧ Ev.loadC ad ∈ (fiveloops MC NC KC m n k A a rsA csA B b rsB csB C c
            1 csC Bt0 At0).2
          ∧ ∀ i j2 : ℕ, i < m → j2 < n → ad ≠ c + (i : ℤ) + (j2 : ℤ) * csC) := by
  refine ⟨?_, ?_, ?_⟩
  · intro k mpA aoff mpB boff C c rsC csC j t hj ht
    exact kernel_mem_store k mpA aoff mpB boff C c rsC csC j t hj ht
  · intro MC NC KC m n k A a rsA csA B b rsB csB C c csC Bt0 At0 hMC hNC hKC
      hm hn hk hmMC hm4 hcs
    have hi0 : ((m + 3) / 4 - 1) * 4 ∈ chunkStarts MR (min MC (m - 0)) := by
      rw [show min MC (m - 0) = m from by omega]
      have hc : (m + MR - 1) / MR = (m + 3) / 4 := by norm_num [MR]
      have h2 := @mem_chunkStarts ((m + 3) / 4 - 1) MR m (by rw [hc]; omega)
      simpa [MR] using h2
    have hj20 : 0 ∈ chunkStarts NR (min NC (n - 0)) :=
      zero_mem_chunkStarts NR _ (by norm_num [NR]) (by omega)
    have hs := trace_into_fiveloops _ MC NC KC m n k A a rsA csA B b rsB csB
      C c 1 csC Bt0 At0 hMC hNC hKC hm hn hk
      (fun At2 Bt2 Cm => (twoloops_kernel_ev_mem (min MC (m - 0))
        (min NC (n - 0)) (min KC (k - 0)) At2 Bt2 Cm
        (c + ((0 : ℕ) : ℤ) * csC + ((0 : ℕ) : ℤ) * 1) 1 csC hj20 hi0 0 3
        (by norm_num) (by norm_num)).1)
    have hl := trace_into_fiveloops _ MC NC KC m n k A a rsA csA B b rsB csB
      C c 1 csC Bt0 At0 hMC hNC hKC hm hn hk
      (fun At2 Bt2 Cm => (twoloops_kernel_ev_mem (min MC (m - 0))
        (min NC (n - 0)) (min KC (k - 0)) At2 Bt2 Cm
        (c + ((0 : ℕ) : ℤ) * csC + ((0 : ℕ) : ℤ) * 1) 1 csC hj20 hi0 0 3
        (by norm_num) (by norm_num)).2)
    refine ⟨_, hs, hl, ?_⟩
    intro i j2 hi hj2 heq
    rcases Nat.eq_zero_or_pos j2 with hj0 | hj1
    · subst hj0
      omega
    · have h0c : (0 : ℤ) ≤ csC := by omega
      have h1j : (1 : ℤ) ≤ (j2 : ℤ) := by omega
      have hJ : (csC : ℤ) ≤ (j2 : ℤ) * csC := le_mul_of_one_le_left h0c h1j
      omega
  · intro MC NC KC m n k A a rsA csA B b rsB csB C c csC Bt0 At0 hMC hNC hKC
      hm hn hk hnNC hn4 hcs
    have hj20 : ((n + 3) / 4 - 1) * 4 ∈ chunkStarts NR (min NC (n - 0)) := by
      rw [show min NC (n - 0) = n from by omega]
      have hc : (n + NR - 1) / NR = (n + 3) / 4 := by norm_num [NR]
      have h2 := @mem_chunkStarts ((n + 3) / 4 - 1) NR n (by rw [hc]; omega)
      simpa [NR] using h2
    have hi0 : 0 ∈ chunkStarts MR (min MC (m - 0)) :=
      zero_mem_chunkStarts MR _ (by norm_num [MR]) (by omega)
    have hs := trace_into_fiveloops _ MC NC KC m n k A a rsA csA B b rsB csB
      C c 1 csC Bt0 At0 hMC hNC hKC hm hn hk
      (fun At2 Bt2 Cm => (twoloops_kernel_ev_mem (min MC (m - 0))
        (min NC (n - 0)) (min KC (k - 0)) At2 Bt2 Cm
        (c + ((0 : ℕ) : ℤ) * csC + ((0 : ℕ) : ℤ) * 1) 1 csC hj20 hi0 3 0
        (by norm_num) (by norm_num)).1)
    have hl := trace_into_fiveloops _ MC NC KC m n k A a rsA csA B b rsB csB
      C c 1 csC Bt0 At0 hMC hNC hKC hm hn hk
      (fun At2 Bt2 Cm => (twoloops_kernel_ev_mem (min MC (m - 0))
        (min NC (n - 0)) (min KC (k - 0)) At2 Bt2 Cm
        (c + ((0 : ℕ) : ℤ) * csC + ((0 : ℕ) : ℤ) * 1) 1 csC hj20 hi0 3 0
        (by norm_num) (by norm_num)).2)
    refine ⟨_, hs, hl, ?_⟩
    intro i j2 hi hj2 heq
    have hd : (1 : ℤ) ≤ ((((n + 3) / 4 - 1) * 4 : ℕ) : ℤ) + 3 - (j2 : ℤ) := by
      omega
    have h0c : (0 : ℤ) ≤ csC := by omega
    have hZ : (((((n + 3) / 4 - 1) * 4 : ℕ) : ℤ) + 3 - (j2 : ℤ)) * csC
        = ((((n + 3) / 4 - 1) * 4 : ℕ) : ℤ) * csC + 3 * csC
          - (j2 : ℤ) * csC := by ring
    have hJ : (csC : ℤ)
        ≤ (((((n + 3) / 4 - 1) * 4 : ℕ) : ℤ) + 3 - (j2 : ℤ)) * csC :=
      le_mul_of_one_le_left h0c hd
    omega

/-- Witness for C6: for the `1 × 1` problem (`m = n = k = 1`,
`MC = NC = KC = 8`, `rsC = 1`, `csC = 8`), some element of C outside the
single logical element is both loaded and stored. -/
theorem microkernel_full_tile_and_oob_witness :
    ∃ ad : ℤ,
      Ev.storeC ad ∈ (fiveloops 8 8 8 1 1 1 (fun _ => 0) 0 1 1 (fun _ => 0) 0
        1 1 (fun _ => 0) 0 1 8 (fun _ => 0) (fun _ => 0)).2
      ∧ Ev.loadC ad ∈ (fiveloops 8 8 8 1 1 1 (fun _ => 0) 0 1 1 (fun _ => 0) 0
        1 1 (fun _ => 0) 0 1 8 (fun _ => 0) (fun _ => 0)).2
      ∧ ∀ i j2 : ℕ, i < 1 → j2 < 1 → ad ≠ 0 + (i : ℤ) + (j2 : ℤ) * 8 :=
  microkernel_full_tile_and_oob.2.1 8 8 8 1 1 1 (fun _ => 0) 0 1 1
    (fun _ => 0) 0 1 1 (fun _ => 0) 0 8 (fun _ => 0) (fun _ => 0)
    (by norm_num) (by norm_num) (by norm_num) (by norm_num) (by norm_num)
    (by norm_num) (by norm_num) (by norm_num) (by norm_num)

end FiveLoops
